import Mathlib

/-!
Shallow embedding of the `cron-test` field compiler and match engine
(`CronExpression` in the JavaScript source) together with proofs about it.

Conventions used throughout:
* JavaScript numbers appearing in compiled field sets are modelled by
  `JSNum := Option Int`, where `none` stands for `NaN` (the character class
  accepted by the compiler admits `|`, and an atom such as `1|2` is coerced
  with unary `+` to `NaN` and stored as-is).  All comparisons against `NaN`
  are false, which the `js…` helpers reproduce.
* Strings are processed as `List Char`, mirroring the JavaScript string
  operations (`split`, `replace`, `trim`) character by character.
* Exceptions become `Except CronErr`.
-/

namespace Cron

/-- A JavaScript number stored in a compiled set: `none` models `NaN`. -/
abbrev JSNum := Option Int

/-- `v <= x` where `x` may be `NaN` (any comparison with `NaN` is false). -/
def jsGe (x : JSNum) (v : Int) : Bool :=
  match x with
  | some n => decide (v ≤ n)
  | none => false

/-- `a < b` on two possibly-`NaN`/undefined values; false if either is absent. -/
def jsLtO (a b : Option Int) : Bool :=
  match a, b with
  | some x, some y => decide (x < y)
  | _, _ => false

/-- Digit-string value (the string is assumed to consist of digits). -/
def digitsVal (s : List Char) : Int :=
  s.foldl (fun a c => a * 10 + ((c.toNat : Int) - 48)) 0

/-- JavaScript unary `+` on the strings that can reach it here: the empty
string coerces to `0`, an optional leading `-` followed by digits to the
signed value, and anything else (for example a string containing `|`) to
`NaN` (`none`). -/
def jsToNum (s : List Char) : JSNum :=
  match s with
  | [] => some 0
  | '-' :: rest =>
    if rest ≠ [] ∧ rest.all Char.isDigit then some (-(digitsVal rest)) else none
  | _ => if s.all Char.isDigit then some (digitsVal s) else none

/-- Split a character list at every character satisfying `p`, keeping empty
pieces, exactly like JavaScript `String.prototype.split` with a
single-character separator. The result is always non-empty. -/
def splitOnP (p : Char → Bool) : List Char → List (List Char)
  | [] => [[]]
  | c :: rest =>
    if p c then [] :: splitOnP p rest
    else
      match splitOnP p rest with
      | [] => [[c]]
      | t :: ts => (c :: t) :: ts

/-- JavaScript `split` on one concrete character. -/
def splitOnChar (c : Char) (l : List Char) : List (List Char) :=
  splitOnP (fun x => x = c) l

/-- JavaScript `String.prototype.trim`. -/
def trimChars (l : List Char) : List Char :=
  ((l.dropWhile Char.isWhitespace).reverse.dropWhile Char.isWhitespace).reverse

/-- JavaScript `split(/\s+/)` on a trimmed string: whitespace runs separate
tokens; the empty string yields a single empty token. -/
def splitWS (l : List Char) : List (List Char) :=
  match l with
  | [] => [[]]
  | _ => (splitOnP Char.isWhitespace l).filter (fun t => t ≠ [])

/-- Decimal digits of a natural number, fuel-based so that the kernel can
reduce it; `fuel ≥ n` always suffices since the recursion divides by 10. -/
def natToCharsF : Nat → Nat → List Char
  | 0, n => [Char.ofNat (48 + n % 10)]
  | fuel + 1, n =>
    if n < 10 then [Char.ofNat (48 + n)]
    else natToCharsF fuel (n / 10) ++ [Char.ofNat (48 + n % 10)]

/-- Decimal digits of a natural number, as characters. -/
def natToChars (n : Nat) : List Char := natToCharsF n n

/-- Decimal rendering of an integer (`String(n)` in JavaScript). -/
def intChars (i : Int) : List Char :=
  if i < 0 then '-' :: natToChars (-i).toNat else natToChars i.toNat

/-- Sort key used when a comma list is reordered: strip every non-digit
character and parse the remainder (`parseInt(a.replace(/\D/g, ''), 10)`);
an empty remainder is `NaN` (`none`). -/
def sortKey (s : List Char) : Option Int :=
  let d := s.filter Char.isDigit
  if d = [] then none else some (digitsVal d)

/-- Comparator `parseInt(a) - parseInt(b) < 0`; `NaN` differences count as
equal, matching the ECMAScript treatment of a `NaN` comparator result. -/
def keyLt (a b : List Char) : Bool :=
  match sortKey a, sortKey b with
  | some x, some y => decide (x < y)
  | _, _ => false

/-- Stable insertion of one atom into an already sorted prefix. -/
def insertAtom (x : List Char) : List (List Char) → List (List Char)
  | [] => [x]
  | y :: ys => if keyLt x y then x :: y :: ys else y :: insertAtom x ys

/-- Stable sort of the comma-list atoms by numeric key. -/
def jsSortAtoms (l : List (List Char)) : List (List Char) :=
  l.foldl (fun acc x => insertAtom x acc) []

/-- The six cron fields, in source order. -/
inductive Field
  | second | minute | hour | dayOfMonth | month | dayOfWeek
deriving DecidableEq, Repr

/-- `CronExpression.constraints`: the per-field `[min, max]` table. -/
def canon : Field → Int × Int
  | .second => (0, 59)
  | .minute => (0, 59)
  | .hour => (0, 23)
  | .dayOfMonth => (1, 31)
  | .month => (1, 12)
  | .dayOfWeek => (0, 7)

/-- `CronExpression.daysInMonth`. -/
def daysInMonth : List Int := [31, 28, 31, 30, 31, 30, 31, 31, 30, 31, 30, 31]

/-- `CronExpression.aliases` for the month field. -/
def monthAliases : List (List Char × Nat) :=
  [(['j','a','n'], 1), (['f','e','b'], 2), (['m','a','r'], 3), (['a','p','r'], 4),
   (['m','a','y'], 5), (['j','u','n'], 6), (['j','u','l'], 7), (['a','u','g'], 8),
   (['s','e','p'], 9), (['o','c','t'], 10), (['n','o','v'], 11), (['d','e','c'], 12)]

/-- `CronExpression.aliases` for the day-of-week field. -/
def dowAliases : List (List Char × Nat) :=
  [(['s','u','n'], 0), (['m','o','n'], 1), (['t','u','e'], 2), (['w','e','d'], 3),
   (['t','h','u'], 4), (['f','r','i'], 5), (['s','a','t'], 6)]

/-- Alias table per field (empty except for month and day-of-week). -/
def aliasTable : Field → List (List Char × Nat)
  | .month => monthAliases
  | .dayOfWeek => dowAliases
  | _ => []

/-- Association-list lookup on character-list keys. -/
def lookupTbl (tbl : List (List Char × Nat)) (k : List Char) : Option Nat :=
  match tbl with
  | [] => none
  | (k', v) :: rest => if k = k' then some v else lookupTbl rest k

/-- The global-replace of `/[a-z]{1,3}/gi`: every maximal run of up to three
letters is looked up (lower-cased) in the alias table.  In the source the
guard is `typeof aliases[match] !== undefined`, which compares the *string*
returned by `typeof` with the undefined *value* and is therefore always
true; an unknown alias is consequently replaced by the stringified lookup
result, the literal text `undefined`, and the `Cannot resolve alias` throw
is unreachable. -/
def aliasSubF (tbl : List (List Char × Nat)) : Nat → List Char → List Char
  | 0, _ => []
  | _, [] => []
  | fuel + 1, c :: rest =>
    if c.isAlpha then
      let tail2 := (rest.takeWhile Char.isAlpha).take 2
      let key := (c :: tail2).map Char.toLower
      let repl : List Char :=
        match lookupTbl tbl key with
        | some n => natToChars n
        | none => ['u','n','d','e','f','i','n','e','d']
      repl ++ aliasSubF tbl fuel (rest.drop tail2.length)
    else c :: aliasSubF tbl fuel rest

/-- Fuel-based driver for `aliasSubF`: every step consumes at least one
character, so `l.length` fuel is always enough. -/
def aliasSub (tbl : List (List Char × Nat)) (l : List Char) : List Char :=
  aliasSubF tbl l.length l

/-- Character class `[\d|/|*|\-|,]` accepted after alias substitution. -/
def charOk (c : Char) : Bool :=
  c.isDigit || c = '|' || c = '/' || c = '*' || c = '-' || c = ','

/-- Replace every `*` by `"<min>-<max>"` (`constraints.join('-')`). -/
def starReplace (mn mx : Int) (l : List Char) : List Char :=
  l.foldr (fun c acc => (if c = '*' then intChars mn ++ '-' :: intChars mx else [c]) ++ acc) []

/-- The errors thrown by the compiler and the match engine.
`cannotResolveAlias` mirrors the `Cannot resolve alias` throw in the
source; it is unreachable (see `aliasSub`). -/
inductive CronErr
  | cannotResolveAlias
  | invalidCharacters
  | constraintError
  | invalidRange
  | invalidStep
  | invalidDayOfMonth
deriving DecidableEq, Repr

/-- The emission loop of `parseRange`:
`for (index = min; index <= max; index++)` with the counter `repeatIndex`;
an index is pushed when `repeatIndex > 0 && repeatIndex % n === 0`, after
which the counter resets to `1`, otherwise the counter is incremented.
`fuel` is the number of remaining loop iterations. -/
def stepLoop (n : Int) : Nat → Int → Int → List Int
  | 0, _, _ => []
  | fuel + 1, idx, cnt =>
    if 0 < cnt ∧ cnt % n = 0 then idx :: stepLoop n fuel (idx + 1) 1
    else stepLoop n fuel (idx + 1) (cnt + 1)

/-- `parseRange(val, repeatInterval)`: either a scalar (`.inl`, the unary
`+` coercion of the whole text) or the list of emitted range values
(`.inr`).  `ri` is the already-coerced repeat interval. -/
def parseRange (mn mx : Int) (val : List Char) (ri : JSNum) :
    Except CronErr (JSNum ⊕ List Int) :=
  let atoms := splitOnChar '-' val
  if atoms.length > 1 then
    if (atoms.headD []).isEmpty then .ok (.inl (jsToNum val))
    else
      match jsToNum (atoms.getD 0 []), jsToNum (atoms.getD 1 []) with
      | some lo, some hi =>
        if lo < mn ∨ hi > mx then .error .constraintError
        else if lo ≥ hi then .error .invalidRange
        else
          match ri with
          | some n =>
            if n ≤ 0 then .error .invalidStep
            else .ok (.inr (stepLoop n (hi + 1 - lo).toNat lo n))
          | none => .error .invalidStep
      | _, _ => .error .constraintError
  else .ok (.inl (jsToNum val))

/-- `parseRepeat(val)`: split on `/`; with more than one part the first part
is the range text and the last part the repeat interval, otherwise the
interval defaults to `1`. -/
def parseRepeat (mn mx : Int) (val : List Char) : Except CronErr (JSNum ⊕ List Int) :=
  let atoms := splitOnChar '/' val
  if atoms.length > 1 then
    parseRange mn mx (atoms.headD []) (jsToNum (atoms.getLastD []))
  else parseRange mn mx val (some 1)

/-- The value of the running maximum variable: a number, `NaN` (when the
stack contains a `NaN`), or `-Infinity` (`Math.max()` of an empty stack). -/
inductive MaxV
  | num : Int → MaxV
  | nan
  | negInf
deriving DecidableEq, Repr

/-- `Math.max.apply(Math, stack)`. -/
def jsMathMax (stack : List JSNum) : MaxV :=
  if stack.contains none then .nan
  else
    match stack.filterMap id with
    | [] => .negInf
    | x :: xs => .num (xs.foldl max x)

/-- `stack.length > 0 ? Math.max.apply(Math, stack) : -1`. -/
def initMax (stack : List JSNum) : MaxV :=
  if stack.isEmpty then .num (-1) else jsMathMax stack

/-- `value > max` for the three possible states of the running maximum. -/
def gtMax (v : Int) : MaxV → Bool
  | .num m => decide (m < v)
  | .nan => false
  | .negInf => true

/-- The array branch of `handleResult`: each emitted value is checked
against the constraints, appended only when strictly greater than the
running maximum, and the maximum is recomputed from the stack. -/
def pushArray (mn mx : Int) (stack : List JSNum) (m : MaxV) :
    List Int → Except CronErr (List JSNum)
  | [] => .ok stack
  | v :: vs =>
    if v < mn ∨ v > mx then .error .constraintError
    else
      let stack' := if gtMax v m then stack ++ [some v] else stack
      pushArray mn mx stack' (jsMathMax stack') vs

/-- `handleResult`: a scalar is constraint-checked, folded with `% 7` for
the day-of-week field (`NaN % 7` stays `NaN`), and pushed *unconditionally*;
an array result goes through `pushArray`. -/
def handleResult (field : Field) (mn mx : Int) (stack : List JSNum) :
    JSNum ⊕ List Int → Except CronErr (List JSNum)
  | .inr arr => pushArray mn mx stack (initMax stack) arr
  | .inl r =>
    match r with
    | some v =>
      if v < mn ∨ v > mx then .error .constraintError
      else .ok (stack ++ [some (if field = .dayOfWeek then v % 7 else v)])
    | none => .ok (stack ++ [none])

/-- Fold of `handleResult (parseRepeat atom)` over the atom list. -/
def seqFold (field : Field) (mn mx : Int) (stack : List JSNum) :
    List (List Char) → Except CronErr (List JSNum)
  | [] => .ok stack
  | a :: rest => do
    let r ← parseRepeat mn mx a
    let stack' ← handleResult field mn mx stack r
    seqFold field mn mx stack' rest

/-- `parseSequence(val)`: split on `,`; a list of more than one atom is
re-sorted by numeric key first. -/
def parseSequence (field : Field) (mn mx : Int) (val : List Char) :
    Except CronErr (List JSNum) :=
  let atoms := splitOnChar ',' val
  if atoms.length > 1 then seqFold field mn mx [] (jsSortAtoms atoms)
  else seqFold field mn mx [] atoms

/-- `CronExpression._parseField`: alias substitution (month and day-of-week
only), character validation, wildcard expansion, then `parseSequence`. -/
def parseFieldChars (field : Field) (value : List Char) (mn mx : Int) :
    Except CronErr (List JSNum) :=
  let v1 :=
    match field with
    | .month => aliasSub monthAliases value
    | .dayOfWeek => aliasSub dowAliases value
    | _ => value
  if v1 ≠ [] ∧ v1.all charOk then parseSequence field mn mx (starReplace mn mx v1)
  else .error .invalidCharacters

/-- `_parseField` on a Lean string. -/
def cronParseField (field : Field) (value : String) (mn mx : Int) :
    Except CronErr (List JSNum) :=
  parseFieldChars field value.data mn mx

/-- `CronExpression.predefined`. -/
def predefined : List (List Char × List Char) :=
  [("@yearly".data, "0 0 1 1 *".data),
   ("@monthly".data, "0 0 1 * *".data),
   ("@weekly".data, "0 0 * * 0".data),
   ("@daily".data, "0 0 * * *".data),
   ("@hourly".data, "0 * * * *".data)]

/-- Lookup in the predefined-expression table. -/
def lookupPredef (tbl : List (List Char × List Char)) (k : List Char) : Option (List Char) :=
  match tbl with
  | [] => none
  | (k', v) :: rest => if k = k' then some v else lookupPredef rest k

/-- The six compiled value sequences of a `CronExpression`. -/
structure Fields where
  second : List JSNum
  minute : List JSNum
  hour : List JSNum
  dayOfMonth : List JSNum
  month : List JSNum
  dayOfWeek : List JSNum
deriving DecidableEq, Repr

/-- Indexing with a possibly negative JavaScript index; out of range is
`undefined`, which is falsy and selects the `'*'` default below. -/
def atomAt (atoms : List (List Char)) (i : Int) : List Char :=
  if 0 ≤ i then atoms.getD i.toNat [] else []

/-- The token chosen for field `i` in `CronExpression.parse`:
`atoms[atoms.length > c ? i : i - start]`, replaced by the `'*'` default
when `i < start` or the token is falsy. -/
def fieldText (atoms : List (List Char)) (i : Nat) : List Char :=
  let start : Int := 6 - atoms.length
  let v := if atoms.length > 6 then atomAt atoms i else atomAt atoms (i - start)
  if (i : Int) < start ∨ v = [] then ['*'] else v

/-- `CronExpression.parse`: predefined expansion, trim, whitespace split,
left-padding with `'*'` defaults, then one `_parseField` per field. -/
def parseExpr (expression : String) : Except CronErr Fields := do
  let expr :=
    match lookupPredef predefined expression.data with
    | some r => r
    | none => expression.data
  let atoms := splitWS (trimChars expr)
  let s ← parseFieldChars .second (fieldText atoms 0) 0 59
  let mi ← parseFieldChars .minute (fieldText atoms 1) 0 59
  let h ← parseFieldChars .hour (fieldText atoms 2) 0 23
  let dom ← parseFieldChars .dayOfMonth (fieldText atoms 3) 1 31
  let mo ← parseFieldChars .month (fieldText atoms 4) 1 12
  let dow ← parseFieldChars .dayOfWeek (fieldText atoms 5) 0 7
  return ⟨s, mi, h, dom, mo, dow⟩

/-!  The match engine (`CronExpression.prototype.test`).  The calendar
provider (`CronDate`, an external collaborator) is represented by the
calendar components it returns for the tested instant. -/

/-- Calendar components of the tested instant, as returned by the calendar
provider: `month0` is `getMonth()` (0–11), `weekday` is `getDay()` (0–6). -/
structure Instant where
  year : Int
  month0 : Int
  day : Int
  weekday : Int
  hour : Int
  minute : Int
  second : Int
deriving DecidableEq, Repr

/-- `x === value` where `x` may be `NaN` or undefined (then always false). -/
def jsEq (x : JSNum) (v : Int) : Bool :=
  match x with
  | some n => decide (n = v)
  | none => false

/-- The loop of `matchSchedule`: the first element `>= value` decides via
strict equality; `none` means the loop fell through. -/
def matchLoop (value : Int) : List JSNum → Option Bool
  | [] => none
  | x :: xs => if jsGe x value then some (jsEq x value) else matchLoop value xs

/-- `matchSchedule(value, sequence)`: the loop result, or the wrap-around
comparison `sequence[0] === value` when no element is `>= value` (an empty
sequence compares `undefined === value`, which is false). -/
def matchSchedule (value : Int) (seq : List JSNum) : Bool :=
  (matchLoop value seq).getD
    (match seq.head? with
     | some x => jsEq x value
     | none => false)

/-- `isWildcardRange(range, constraints)`: an empty range is never a
wildcard, the constraints array must have exactly two entries, and the
range length must equal `constraints[1] - (constraints[0] < 1 ? -1 : 0)`. -/
def isWildcardRange (range : List JSNum) (cs : List Int) : Bool :=
  if range.isEmpty then false
  else if cs.length ≠ 2 then false
  else (range.length : Int) == cs.getD 1 0 - (if cs.getD 0 0 < 1 then -1 else 0)

/-- The leap-year test
`!((year % 4) || (!(year % 100) && (year % 400)))`. -/
def jsIsLeap (y : Int) : Bool :=
  y % 4 == 0 && !(y % 100 == 0 && y % 400 != 0)

/-- First element of a compiled set as a number (`fields[0]`); `none` for an
empty set (undefined) or a `NaN` entry. -/
def jsHeadNum (l : List JSNum) : Option Int := l.head?.bind id

/-- Last element of a compiled set as a number
(`fields[fields.length - 1]`). -/
def jsLastNum (l : List JSNum) : Option Int := l.getLast?.bind id

/-- `daysInMonth[i]` with a JavaScript (possibly out-of-range) index. -/
def daysInMonthAt (i : Int) : Option Int :=
  if 0 ≤ i then daysInMonth[i.toNat]? else none

/-- The guard of `throw new Error('Invalid explicit day of month
definition')`: previous month is February, the first compiled month equals
the previous month, and the (leap-adjusted) day count of the previous month
is less than the (leap-adjusted) last compiled day of month. -/
def throwCond (f : Fields) (d : Instant) : Bool :=
  let currentMonth := d.month0 + 1
  let previousMonth : Int := if currentMonth = 1 then 11 else currentMonth - 1
  let daysInPreviousMonth := daysInMonthAt (previousMonth - 1)
  let daysOfMontRangeMax := jsLastNum f.dayOfMonth
  let leap := jsIsLeap d.year
  let dPrev := if leap then some 29 else daysInPreviousMonth
  let dMax := if leap then some 29 else daysOfMontRangeMax
  previousMonth == 2 && jsHeadNum f.month == some previousMonth && jsLtO dPrev dMax

/-- The boolean part of `test` after the calendar sanity check: the POSIX
day-selection gates followed by the month, hour, minute and second field
matches. -/
def testRest (f : Fields) (d : Instant) : Bool :=
  let domMatch := matchSchedule d.day f.dayOfMonth
  let dowMatch := matchSchedule d.weekday f.dayOfWeek
  let domWild := isWildcardRange f.dayOfMonth [1, 31]
  let dowWild := isWildcardRange f.dayOfWeek [0, 7]
  if !domMatch && !dowMatch then false
  else if !domWild && dowWild && !domMatch then false
  else if domWild && !dowWild && !dowMatch then false
  else if !(domWild && dowWild) && !domMatch && !dowMatch then false
  else if !(matchSchedule (d.month0 + 1) f.month) then false
  else if !(matchSchedule d.hour f.hour) then false
  else if !(matchSchedule d.minute f.minute) then false
  else if !(matchSchedule d.second f.second) then false
  else true

/-- `CronExpression.prototype.test`, on the calendar components of the
tested instant: the sanity check may throw, otherwise the boolean match is
returned. -/
def testComps (f : Fields) (d : Instant) : Except CronErr Bool :=
  if isWildcardRange f.month [1, 12] = false then
    if throwCond f d then .error .invalidDayOfMonth else .ok (testRest f d)
  else .ok (testRest f d)

/-- The ascending integer set `{lo, lo+1, …, lo+k-1}` as stored values. -/
def mkSet (lo : Int) : Nat → List JSNum
  | 0 => []
  | k + 1 => some lo :: mkSet (lo + 1) k

/-- The compiled form of `"30 4 1,15 * 5"`. -/
def fields30415 : Fields :=
  ⟨mkSet 0 60, [some 30], [some 4], [some 1, some 15], mkSet 1 12, [some 5]⟩

/-- The compiled form of `"0 0 0 31 4 *"` (explicit April, day 31). -/
def fields31Apr : Fields :=
  ⟨[some 0], [some 0], [some 0], [some 31], [some 4], mkSet 0 8⟩

end Cron

deriving instance DecidableEq for Except

namespace Cron

/-! ## Theorems for the claims -/

/-- C9: compiling an unresolvable 1–3 letter alias such as `"foo"` in the
month field does not fail with the unresolvable-alias error: the
`typeof aliases[match] !== undefined` guard in the source is always true,
so the unknown alias is replaced by the text `undefined` and the character
validation rejects it instead. -/
theorem unknownAlias_invalidChars :
    cronParseField .month "foo" 1 12 = .error .invalidCharacters ∧
      cronParseField .month "foo" 1 12 ≠ .error .cannotResolveAlias := by
  constructor
  · rfl
  · decide

/-- C1 counterexample: in the day-of-week field the pre-sorted list `6,7`
compiles to `[6, 0]` — the folded scalar `0` is appended although it is not
greater than the running maximum `6`, so the result is neither strictly
ascending nor duplicate-free in general; and the atom `1|2` (legal under
the character class) is stored as a `NaN` element, which lies in no
`[min,max]` range. -/
theorem parseField_scalar_append_cex :
    cronParseField .dayOfWeek "6,7" 0 7 = .ok [some 6, some 0] ∧
      cronParseField .second "1|2" 0 59 = .ok [none] := by
  exact ⟨rfl, rfl⟩

/-- C2 counterexample: compiling range `0-9` with step `3` emits
`{0, 3, 6, 9}`, not the `{2, 5, 8}` required by the claim's
counter-initialized-to-1 algorithm. -/
theorem stepRange_cex :
    cronParseField .second "0-9/3" 0 59 = .ok [some 0, some 3, some 6, some 9] ∧
      ([some 0, some 3, some 6, some 9] : List JSNum) ≠ [some 2, some 5, some 8] := by
  exact ⟨rfl, by decide⟩

/-- C3 counterexample: `5/2` in the hour field compiles to the bare scalar
`[5]`, not to the stepped range `5-23/2`. -/
theorem scalarStep_cex :
    cronParseField .hour "5/2" 0 23 = .ok [some 5] ∧
      cronParseField .hour "5-23/2" 0 23 =
        .ok [some 5, some 7, some 9, some 11, some 13, some 15, some 17, some 19,
             some 21, some 23] ∧
      cronParseField .hour "5/2" 0 23 ≠ cronParseField .hour "5-23/2" 0 23 := by
  refine ⟨rfl, rfl, ?_⟩
  decide

set_option maxRecDepth 100000 in
/-- C4 counterexample: `"@hourly"` does not compile to the same fields as
the six-field expression `"0 * * * * *"` (the predefined form is five
fields, so its seconds field defaults to the full wildcard range and its
minute field is `[0]`, while `"0 * * * * *"` has seconds `[0]` and a
wildcard minute field). -/
theorem hourly_cex : parseExpr "@hourly" ≠ parseExpr "0 * * * * *" := by
  decide

set_option maxRecDepth 100000 in
/-- C4 amended: `"@hourly"` compiles identically to `"* 0 * * * *"`. -/
theorem hourly_amended : parseExpr "@hourly" = parseExpr "* 0 * * * *" := by
  rfl

/-- C6 counterexample: for the day-of-month constraints `[1, 31]` the helper
returns true exactly on sets of length 31 (`constraints.max`), not length 30
(`constraints.max - constraints.min`): the full span `1..31` has 31 elements
and is reported as a wildcard. -/
theorem isWildcardRange_cex :
    isWildcardRange (mkSet 1 31) [1, 31] = true ∧
      ((mkSet 1 31).length : Int) ≠ 31 - 1 := by
  decide

/-- C6 amended: `isWildcardRange` is true iff the set is non-empty and its
length equals `constraints.max`, adjusted by `+1` when
`constraints.min < 1` (no `constraints.min` subtraction takes place). -/
theorem isWildcardRange_spec (S : List JSNum) (mn mx : Int) :
    isWildcardRange S [mn, mx] = true ↔
      S ≠ [] ∧ (S.length : Int) = mx + (if mn < 1 then 1 else 0) := by
  unfold isWildcardRange
  by_cases hS : S = []
  · subst hS; simp
  · have : S.isEmpty = false := by simpa [List.isEmpty_iff] using hS
    simp only [this, if_false, List.length_cons, List.length_nil, List.getD]
    split <;> (simp_all; try omega)

/-- Helper: the loop of `matchSchedule` falls through when every element of
an all-numeric sequence is below the queried value. -/
theorem matchLoop_none (v : Int) :
    ∀ (S : List Int), (∀ y ∈ S, y < v) → matchLoop v (S.map some) = none := by
  intro S
  induction S with
  | nil => intro _; rfl
  | cons a t ih =>
    intro h
    have ha : ¬ v ≤ a := not_le.mpr (h a (List.mem_cons_self a t))
    simpa [matchLoop, jsGe, ha] using ih (fun y hy => h y (List.mem_cons_of_mem a hy))

/-- Helper: the loop of `matchSchedule` finds an answer whenever some
numeric element is at least the queried value. -/
theorem matchLoop_isSome (v : Int) :
    ∀ (L : List JSNum), (∃ x : Int, some x ∈ L ∧ v ≤ x) → (matchLoop v L).isSome := by
  intro L
  induction L with
  | nil => rintro ⟨x, hx, _⟩; cases hx
  | cons a t ih =>
    rintro ⟨x, hx, hvx⟩
    by_cases h : jsGe a v = true
    · simp [matchLoop, h]
    · rcases List.mem_cons.mp hx with h1 | h1
      · exact absurd (by simp [← h1, jsGe, hvx]) h
      · simpa [matchLoop, h] using ih ⟨x, h1, hvx⟩

/-- Helper (C7, least-element branch): on a sorted numeric set, the first
element `>= v` is the least such element, and `matchSchedule` returns
whether it equals `v`. -/
theorem matchSchedule_least (v : Int) :
    ∀ (S : List Int), List.Chain' (· ≤ ·) S →
      ∀ x, x ∈ S → v ≤ x → (∀ y, y ∈ S → v ≤ y → x ≤ y) →
        matchSchedule v (S.map some) = decide (x = v) := by
  intro S
  induction S with
  | nil => intro _ x hx; exact absurd hx (List.not_mem_nil x)
  | cons a rest ih =>
    intro hs x hx hvx hmin
    by_cases hva : v ≤ a
    · have hax : a ≤ x := by
        rcases List.mem_cons.mp hx with h | h
        · exact le_of_eq h.symm
        · exact List.rel_of_pairwise_cons (List.chain'_iff_pairwise.mp hs) h
      have hxa : x = a := le_antisymm (hmin a (List.mem_cons_self a rest) hva) hax
      subst hxa
      simp [matchSchedule, matchLoop, jsGe, jsEq, hva]
    · have hxr : x ∈ rest := by
        rcases List.mem_cons.mp hx with h | h
        · exact absurd (h ▸ hvx) hva
        · exact h
      obtain ⟨b, hb⟩ := Option.isSome_iff_exists.mp
        (matchLoop_isSome v (rest.map some) ⟨x, List.mem_map_of_mem some hxr, hvx⟩)
      have htail := ih hs.tail x hxr hvx (fun y hy hvy => hmin y (List.mem_cons_of_mem a hy) hvy)
      have h1 : matchSchedule v (rest.map some) = b := by simp [matchSchedule, hb]
      have h2 : matchSchedule v ((a :: rest).map some) = b := by
        simp [matchSchedule, matchLoop, jsGe, hva, hb]
      rw [h2, ← h1]
      exact htail

/-- Helper (C7, wrap branch): when no element is `>= v`, `matchSchedule`
compares `v` with the first element of the set. -/
theorem matchSchedule_wrap (v : Int) (S : List Int) (h : ∀ y ∈ S, y < v) :
    matchSchedule v (S.map some) = decide (S.head? = some v) := by
  unfold matchSchedule
  rw [matchLoop_none v S h]
  cases S with
  | nil => rfl
  | cons a t => simp [jsEq]

/-- C7: on a sorted compiled set, `matchSchedule` returns true iff the
least element `>= value` equals `value`; and when no element is `>= value`
it falls back to comparing `value` with the set's first element. -/
theorem matchSchedule_spec (v : Int) (S : List Int) (hs : List.Chain' (· ≤ ·) S) :
    (∀ x, x ∈ S → v ≤ x → (∀ y, y ∈ S → v ≤ y → x ≤ y) →
        matchSchedule v (S.map some) = decide (x = v)) ∧
      ((∀ y, y ∈ S → y < v) → matchSchedule v (S.map some) = decide (S.head? = some v)) :=
  ⟨fun x hx hvx hmin => matchSchedule_least v S hs x hx hvx hmin,
   fun h => matchSchedule_wrap v S h⟩

/-- Witness for `matchSchedule_spec`: in `{3, 8}` the least element `>= 5`
is `8`, so the query `5` does not match. -/
theorem matchSchedule_spec_witness :
    matchSchedule 5 (([3, 8] : List Int).map some) = false := by
  have h := (matchSchedule_spec 5 [3, 8] (by simp)).1 8 (by decide) (by decide)
    (by decide)
  simpa using h

/-- Helper: adding the modulus on the right does not change the remainder. -/
theorem emod_add_right_self (k n : Int) : (k + n) % n = k % n := by
  conv_lhs => rw [show k + n = k + n * 1 by ring]
  rw [Int.add_mul_emod_self_left]

/-- Helper: closed form of the emission loop.  With counter `c` (where
`0 < c ≤ n`), exactly the offsets `k` with `(k + c) % n = 0` are emitted. -/
theorem stepLoop_filter (n : Int) (hn : 0 < n) :
    ∀ (fuel : Nat) (idx c : Int), 0 < c → c ≤ n →
      stepLoop n fuel idx c =
        ((List.range fuel).filter (fun (k : Nat) => decide (((k : Int) + c) % n = 0))).map
          (fun (k : Nat) => idx + (k : Int)) := by
  intro fuel
  induction fuel with
  | zero => intros; rfl
  | succ m ih =>
    intro idx c hc1 hc2
    rw [List.range_succ_eq_map]
    by_cases hcn : c = n
    · have hcmod : c % n = 0 := by rw [hcn]; exact Int.emod_self
      have hpc0 : (((0 : Nat) : Int) + c) % n = 0 := by simpa using hcmod
      unfold stepLoop
      rw [if_pos ⟨hc1, hcmod⟩]
      rw [ih (idx + 1) 1 one_pos (by omega)]
      rw [List.filter_cons, if_pos (by simpa using hpc0), List.map_cons]
      rw [show idx + ((0 : Nat) : Int) = idx by simp]
      refine congrArg (idx :: ·) ?_
      rw [List.filter_map, List.map_map]
      have hfil : List.filter ((fun (k : Nat) => decide (((k : Int) + c) % n = 0)) ∘ Nat.succ)
            (List.range m)
          = List.filter (fun (k : Nat) => decide (((k : Int) + 1) % n = 0)) (List.range m) := by
        refine List.filter_congr (fun k _ => ?_)
        simp only [Function.comp_apply]
        have he : ((Nat.succ k : Int) + c) % n = ((k : Int) + 1) % n := by
          rw [hcn]
          push_cast
          exact emod_add_right_self ((k : Int) + 1) n
        rw [he]
      rw [hfil]
      refine List.map_congr_left (fun k _ => ?_)
      simp only [Function.comp_apply]
      push_cast
      ring
    · have hclt : c < n := lt_of_le_of_ne hc2 hcn
      have hcmod : ¬ (0 < c ∧ c % n = 0) := by
        rintro ⟨-, h⟩
        rw [Int.emod_eq_of_lt (le_of_lt hc1) hclt] at h
        omega
      have hpc0 : ¬ ((((0 : Nat) : Int) + c) % n = 0) := by
        intro h
        exact hcmod ⟨hc1, by simpa using h⟩
      unfold stepLoop
      rw [if_neg hcmod]
      rw [ih (idx + 1) (c + 1) (by omega) (by omega)]
      rw [List.filter_cons, if_neg (by simpa using hpc0)]
      rw [List.filter_map, List.map_map]
      have hfil : List.filter ((fun (k : Nat) => decide (((k : Int) + c) % n = 0)) ∘ Nat.succ)
            (List.range m)
          = List.filter (fun (k : Nat) => decide (((k : Int) + (c + 1)) % n = 0))
              (List.range m) := by
        refine List.filter_congr (fun k _ => ?_)
        simp only [Function.comp_apply]
        have he : ((Nat.succ k : Int) + c) % n = ((k : Int) + (c + 1)) % n := by
          push_cast
          ring_nf
        rw [he]
      rw [hfil]
      refine List.map_congr_left (fun k _ => ?_)
      simp only [Function.comp_apply]
      push_cast
      ring

/-- C2 amended: the counter starts at the step value itself, so the range
minimum is always emitted; the emitted values of a valid range `a-b` with
step `n` are exactly the indices `i ∈ [a, b]` with `(i - a) % n = 0`; in
particular `0-9/3` compiles to `{0, 3, 6, 9}`. -/
theorem stepEmission_spec :
    (∀ (a b n : Int), 0 < n → a ≤ b →
        stepLoop n (b + 1 - a).toNat a n =
          ((List.range (b + 1 - a).toNat).filter
              (fun (k : Nat) => decide ((k : Int) % n = 0))).map
            (fun (k : Nat) => a + (k : Int))) ∧
      cronParseField .second "0-9/3" 0 59 = .ok [some 0, some 3, some 6, some 9] := by
  constructor
  · intro a b n hn _
    rw [stepLoop_filter n hn _ a n hn le_rfl]
    refine congrArg (List.map _) (List.filter_congr ?_)
    intro k _
    have : ((k : Int) + n) % n = (k : Int) % n := emod_add_right_self _ n
    simp [this]
  · rfl

/-- Witness for `stepEmission_spec` at range `0-9`, step `3`. -/
theorem stepEmission_spec_witness :
    stepLoop 3 ((9 : Int) + 1 - 0).toNat 0 3 =
      ((List.range ((9 : Int) + 1 - 0).toNat).filter
          (fun (k : Nat) => decide ((k : Int) % 3 = 0))).map
        (fun (k : Nat) => (0 : Int) + (k : Int)) :=
  stepEmission_spec.1 0 9 3 (by decide) (by decide)

/-- Helper: a digit character is not a letter. -/
theorem digit_not_alpha {c : Char} (h : c.isDigit = true) : c.isAlpha = false := by
  cases h' : c.isAlpha with
  | false => rfl
  | true =>
    exfalso
    simp only [Char.isDigit, Bool.and_eq_true, decide_eq_true_eq] at h
    simp only [Char.isAlpha, Char.isUpper, Char.isLower, Bool.or_eq_true,
      Bool.and_eq_true, decide_eq_true_eq] at h'
    rcases h' with ⟨h1, _⟩ | ⟨h1, _⟩
    · exact absurd (UInt32.le_trans h1 h.2) (by decide)
    · exact absurd (UInt32.le_trans h1 h.2) (by decide)

/-- Helper: a digit character is none of the separator characters. -/
theorem digit_ne {c x : Char} (h : c.isDigit = true) (hx : x.isDigit = false) :
    ¬ c = x := by
  intro e
  rw [e, hx] at h
  cases h

/-- Helper: alias substitution is the identity on letter-free text. -/
theorem aliasSubF_id (tbl : List (List Char × Nat)) :
    ∀ (fuel : Nat) (l : List Char), l.length ≤ fuel →
      (∀ c ∈ l, c.isAlpha = false) → aliasSubF tbl fuel l = l := by
  intro fuel
  induction fuel with
  | zero =>
    intro l hl _
    have : l = [] := List.length_eq_zero.mp (Nat.le_zero.mp hl)
    subst this
    rfl
  | succ f ih =>
    intro l hl h
    cases l with
    | nil => rfl
    | cons c rest =>
      have hc : c.isAlpha = false := h c (List.mem_cons_self c rest)
      simp only [aliasSubF, hc, Bool.false_eq_true, if_false]
      rw [ih rest (by simpa using Nat.le_of_succ_le_succ hl)
        (fun d hd => h d (List.mem_cons_of_mem c hd))]

/-- Helper: `aliasSub` is the identity on letter-free text. -/
theorem aliasSub_id (tbl : List (List Char × Nat)) (l : List Char)
    (h : ∀ c ∈ l, c.isAlpha = false) : aliasSub tbl l = l :=
  aliasSubF_id tbl l.length l le_rfl h

/-- Helper: wildcard expansion is the identity on star-free text. -/
theorem starReplace_id (mn mx : Int) :
    ∀ l : List Char, (∀ c ∈ l, ¬ c = '*') → starReplace mn mx l = l := by
  intro l
  induction l with
  | nil => intro _; rfl
  | cons c rest ih =>
    intro h
    show (if c = '*' then intChars mn ++ '-' :: intChars mx else [c]) ++
        starReplace mn mx rest = c :: rest
    rw [if_neg (h c (List.mem_cons_self c rest)),
      ih (fun d hd => h d (List.mem_cons_of_mem c hd))]
    rfl

/-- Helper: splitting on a character that does not occur yields one piece. -/
theorem splitOnP_single (p : Char → Bool) :
    ∀ l : List Char, (∀ c ∈ l, p c = false) → splitOnP p l = [l] := by
  intro l
  induction l with
  | nil => intro _; rfl
  | cons c rest ih =>
    intro h
    have hc : p c = false := h c (List.mem_cons_self c rest)
    simp only [splitOnP, hc, Bool.false_eq_true, if_false]
    rw [ih (fun d hd => h d (List.mem_cons_of_mem c hd))]

/-- Helper: splitting around a single separator occurrence. -/
theorem splitOnP_append_sep (p : Char → Bool) (x : Char) (hx : p x = true) :
    ∀ (s t : List Char), (∀ c ∈ s, p c = false) →
      splitOnP p (s ++ x :: t) = s :: splitOnP p t := by
  intro s
  induction s with
  | nil =>
    intro t _
    simp only [List.nil_append, splitOnP, hx, if_true]
  | cons c s' ih =>
    intro t h
    have hc : p c = false := h c (List.mem_cons_self c s')
    simp only [List.cons_append, splitOnP, hc, Bool.false_eq_true, if_false,
      List.append_eq]
    rw [ih t (fun d hd => h d (List.mem_cons_of_mem c hd))]

/-- C3 amended: for a scalar (all-digit) atom `a`, compiling `a/n` ignores
the step entirely and is identical to compiling the bare scalar `a`: the
range-through-the-field-maximum interpretation applies only when the text
left of `/` contains `-` (for example after wildcard expansion). -/
theorem scalarStep_ignores_interval (field : Field) (mn mx : Int) (s t : List Char)
    (hs1 : s ≠ []) (hs2 : s.all Char.isDigit = true) (ht2 : t.all Char.isDigit = true) :
    parseFieldChars field (s ++ '/' :: t) mn mx = parseFieldChars field s mn mx := by
  have hsd : ∀ c ∈ s, c.isDigit = true := fun c hc => List.all_eq_true.mp hs2 c hc
  have htd : ∀ c ∈ t, c.isDigit = true := fun c hc => List.all_eq_true.mp ht2 c hc
  have hfulld : ∀ c ∈ s ++ '/' :: t, c.isDigit = true ∨ c = '/' := by
    intro c hc
    rcases List.mem_append.mp hc with h | h
    · exact .inl (hsd c h)
    · rcases List.mem_cons.mp h with h | h
      · exact .inr h
      · exact .inl (htd c h)
  have hna : ∀ c ∈ s ++ '/' :: t, c.isAlpha = false := by
    intro c hc
    rcases hfulld c hc with h | h
    · exact digit_not_alpha h
    · rw [h]; decide
  have hnas : ∀ c ∈ s, c.isAlpha = false := fun c hc => digit_not_alpha (hsd c hc)
  have hok : ∀ c ∈ s ++ '/' :: t, charOk c = true := by
    intro c hc
    rcases hfulld c hc with h | h
    · simp [charOk, h]
    · rw [h]; decide
  have hoks : ∀ c ∈ s, charOk c = true := by
    intro c hc
    simp [charOk, hsd c hc]
  have hstar : ∀ c ∈ s ++ '/' :: t, ¬ c = '*' := by
    intro c hc
    rcases hfulld c hc with h | h
    · exact digit_ne h (by decide)
    · rw [h]; decide
  have hstars : ∀ c ∈ s, ¬ c = '*' := fun c hc => digit_ne (hsd c hc) (by decide)
  have hmain : parseSequence field mn mx (s ++ '/' :: t) = parseSequence field mn mx s := by
    have hc1 : splitOnChar ',' (s ++ '/' :: t) = [s ++ '/' :: t] := by
      refine splitOnP_single _ _ (fun c hc => ?_)
      rcases hfulld c hc with h | h
      · exact decide_eq_false (digit_ne h (by decide))
      · rw [h]; decide
    have hc2 : splitOnChar ',' s = [s] := by
      refine splitOnP_single _ _ (fun c hc => decide_eq_false (digit_ne (hsd c hc) (by decide)))
    have hr1 : splitOnChar '/' (s ++ '/' :: t) = [s, t] := by
      have := splitOnP_append_sep (fun x => x = '/') '/' (by decide) s t
        (fun c hc => decide_eq_false (digit_ne (hsd c hc) (by decide)))
      rw [splitOnChar, this,
        splitOnP_single _ t (fun c hc => decide_eq_false (digit_ne (htd c hc) (by decide)))]
    have hr2 : splitOnChar '/' s = [s] := by
      refine splitOnP_single _ _ (fun c hc => decide_eq_false (digit_ne (hsd c hc) (by decide)))
    have hd2 : splitOnChar '-' s = [s] := by
      refine splitOnP_single _ _ (fun c hc => decide_eq_false (digit_ne (hsd c hc) (by decide)))
    have hscalar : parseRange mn mx s (jsToNum t) = .ok (.inl (jsToNum s)) := by
      unfold parseRange
      rw [hd2]
      simp
    have hscalar1 : parseRange mn mx s (some 1) = .ok (.inl (jsToNum s)) := by
      unfold parseRange
      rw [hd2]
      simp
    have hrep1 : parseRepeat mn mx (s ++ '/' :: t) = .ok (.inl (jsToNum s)) := by
      unfold parseRepeat
      rw [hr1]
      rw [if_pos (by simp)]
      rw [show ([s, t] : List (List Char)).headD [] = s from rfl]
      rw [show ([s, t] : List (List Char)).getLastD [] = t by
        simp [List.getLastD_cons]]
      exact hscalar
    have hrep2 : parseRepeat mn mx s = .ok (.inl (jsToNum s)) := by
      unfold parseRepeat
      rw [hr2]
      rw [if_neg (by simp)]
      exact hscalar1
    unfold parseSequence
    rw [hc1, hc2]
    rw [if_neg (by simp), if_neg (by simp)]
    unfold seqFold
    rw [hrep1, hrep2]
  have halias1 : ∀ tbl, aliasSub tbl (s ++ '/' :: t) = s ++ '/' :: t :=
    fun tbl => aliasSub_id tbl _ hna
  have halias2 : ∀ tbl, aliasSub tbl s = s := fun tbl => aliasSub_id tbl _ hnas
  have hne1 : (s ++ '/' :: t) ≠ [] := by simp
  have hall1 : (s ++ '/' :: t).all charOk = true := List.all_eq_true.mpr hok
  have hall2 : s.all charOk = true := List.all_eq_true.mpr hoks
  have hsr1 : starReplace mn mx (s ++ '/' :: t) = s ++ '/' :: t := starReplace_id mn mx _ hstar
  have hsr2 : starReplace mn mx s = s := starReplace_id mn mx _ hstars
  cases field <;>
    · simp only [parseFieldChars, halias1, halias2]
      rw [if_pos ⟨hne1, hall1⟩, if_pos ⟨hs1, hall2⟩, hsr1, hsr2, hmain]

/-- Witness for `scalarStep_ignores_interval` at the hour field,
`"5/2"` versus `"5"`. -/
theorem scalarStep_ignores_interval_witness :
    parseFieldChars .hour ("5/2".data) 0 23 = parseFieldChars .hour ("5".data) 0 23 :=
  scalarStep_ignores_interval .hour 0 23 ['5'] ['2'] (by decide) (by decide) (by decide)

/-- Helper: the array branch of `handleResult` keeps every numeric element
inside the constraints (each array value is checked before any push). -/
theorem pushArray_inRange (mn mx : Int) :
    ∀ (arr : List Int) (stack : List JSNum) (m : MaxV) (out : List JSNum),
      (∀ v : Int, some v ∈ stack → mn ≤ v ∧ v ≤ mx) →
      pushArray mn mx stack m arr = .ok out →
      ∀ v : Int, some v ∈ out → mn ≤ v ∧ v ≤ mx := by
  intro arr
  induction arr with
  | nil =>
    intro stack m out hs h v hv
    simp only [pushArray] at h
    cases h
    exact hs v hv
  | cons w ws ih =>
    intro stack m out hs h v hv
    simp only [pushArray] at h
    by_cases hc : w < mn ∨ w > mx
    · rw [if_pos hc] at h
      cases h
    · rw [if_neg hc] at h
      push_neg at hc
      refine ih _ _ out ?_ h v hv
      intro u hu
      by_cases hg : gtMax w m = true
      · simp only [hg, if_true] at hu
        rcases List.mem_append.mp hu with h1 | h1
        · exact hs u h1
        · have : some u = some w := List.mem_singleton.mp h1
          cases this
          exact ⟨hc.1, hc.2⟩
      · simp only [hg] at hu
        exact hs u hu

/-- Helper: `handleResult` keeps every numeric element inside the
constraints (the day-of-week fold lands in `[0, 6]`). -/
theorem handleResult_inRange (field : Field) (mn mx : Int)
    (hdow : field = .dayOfWeek → mn ≤ 0 ∧ 6 ≤ mx) :
    ∀ (r : JSNum ⊕ List Int) (stack out : List JSNum),
      (∀ v : Int, some v ∈ stack → mn ≤ v ∧ v ≤ mx) →
      handleResult field mn mx stack r = .ok out →
      ∀ v : Int, some v ∈ out → mn ≤ v ∧ v ≤ mx := by
  intro r stack out hs h
  cases r with
  | inr arr => exact pushArray_inRange mn mx arr stack _ out hs h
  | inl x =>
    cases x with
    | none =>
      simp only [handleResult] at h
      cases h
      intro v hv
      rcases List.mem_append.mp hv with h1 | h1
      · exact hs v h1
      · cases List.mem_singleton.mp h1
    | some w =>
      simp only [handleResult] at h
      by_cases hc : w < mn ∨ w > mx
      · rw [if_pos hc] at h
        cases h
      · rw [if_neg hc] at h
        cases h
        push_neg at hc
        intro v hv
        rcases List.mem_append.mp hv with h1 | h1
        · exact hs v h1
        · have he : some v = some (if field = .dayOfWeek then w % 7 else w) :=
            List.mem_singleton.mp h1
          have hv' : v = if field = .dayOfWeek then w % 7 else w := by
            exact Option.some.inj he
          by_cases hf : field = .dayOfWeek
          · rw [if_pos hf] at hv'
            have hb := hdow hf
            have hge : (0 : Int) ≤ w % 7 := Int.emod_nonneg w (by norm_num)
            have hlt : w % 7 < 7 := Int.emod_lt_of_pos w (by norm_num)
            omega
          · rw [if_neg hf] at hv'
            subst hv'
            exact ⟨hc.1, hc.2⟩

/-- Helper: the atom fold keeps every numeric element inside the
constraints. -/
theorem seqFold_inRange (field : Field) (mn mx : Int)
    (hdow : field = .dayOfWeek → mn ≤ 0 ∧ 6 ≤ mx) :
    ∀ (atoms : List (List Char)) (stack out : List JSNum),
      (∀ v : Int, some v ∈ stack → mn ≤ v ∧ v ≤ mx) →
      seqFold field mn mx stack atoms = .ok out →
      ∀ v : Int, some v ∈ out → mn ≤ v ∧ v ≤ mx := by
  intro atoms
  induction atoms with
  | nil =>
    intro stack out hs h
    simp only [seqFold] at h
    cases h
    exact hs
  | cons a rest ih =>
    intro stack out hs h
    simp only [seqFold] at h
    cases hr : parseRepeat mn mx a with
    | error e => rw [hr] at h; cases h
    | ok r =>
      rw [hr] at h
      simp only [bind, Except.bind] at h
      cases hh : handleResult field mn mx stack r with
      | error e => rw [hh] at h; cases h
      | ok stack2 =>
        rw [hh] at h
        exact ih stack2 out (handleResult_inRange field mn mx hdow r stack stack2 hs hh) h

/-- C1 amended: with a field's canonical constraints, every *numeric*
element of a successful compilation lies within `[min, max]` (the
day-of-week fold `% 7` keeps values in range); and a scalar atom is
appended *unconditionally* after folding — only array-emitted values are
subject to the running-maximum filter, so the result need not be strictly
ascending or duplicate-free, and `NaN` elements can occur. -/
theorem parseField_inRange :
    (∀ (field : Field) (value : List Char) (stack : List JSNum),
        parseFieldChars field value (canon field).1 (canon field).2 = .ok stack →
        ∀ v : Int, some v ∈ stack → (canon field).1 ≤ v ∧ v ≤ (canon field).2) ∧
      (∀ (field : Field) (mn mx : Int) (stack : List JSNum) (v : Int),
        ¬ (v < mn ∨ v > mx) →
        handleResult field mn mx stack (.inl (some v)) =
          .ok (stack ++ [some (if field = .dayOfWeek then v % 7 else v)])) := by
  constructor
  · intro field value stack h v hv
    have hdow : field = .dayOfWeek → (canon field).1 ≤ 0 ∧ 6 ≤ (canon field).2 := by
      intro hf
      subst hf
      exact ⟨by norm_num [canon], by norm_num [canon]⟩
    simp only [parseFieldChars] at h
    split at h
    · simp only [parseSequence] at h
      split at h
      · exact seqFold_inRange field _ _ hdow _ [] stack
          (fun u hu => absurd hu (List.not_mem_nil _)) h v hv
      · exact seqFold_inRange field _ _ hdow _ [] stack
          (fun u hu => absurd hu (List.not_mem_nil _)) h v hv
    · cases h
  · intro field mn mx stack v hv
    simp [handleResult, hv]

/-- Witness for `parseField_inRange` at the folded day-of-week scalar
`"7"`, compiled to `[0]`. -/
theorem parseField_inRange_witness :
    (canon .dayOfWeek).1 ≤ 0 ∧ (0 : Int) ≤ (canon .dayOfWeek).2 :=
  parseField_inRange.1 .dayOfWeek ("7".data) [some 0] (by rfl) 0 (by decide)

set_option maxRecDepth 100000 in
/-- C5 counterexample: for `"0 0 0 31 4 *"` (compiled month `[4]`, compiled
day of month `[31]`) and an instant in May 2017, every condition of the
claim holds — the month field is not a wildcard span, the first compiled
month equals the previous month (April = 4), and the last compiled day of
month 31 exceeds the (non-leap) 30 days of April — yet `test` returns a
boolean instead of raising: the source additionally requires the previous
month to be February. -/
theorem dayOfMonthCheck_cex :
    parseExpr "0 0 0 31 4 *" = .ok fields31Apr ∧
      isWildcardRange fields31Apr.month [1, 12] = false ∧
      jsHeadNum fields31Apr.month = some 4 ∧
      (if (4 : Int) + 1 = 1 then (11 : Int) else 4 + 1 - 1) = 4 ∧
      jsIsLeap 2017 = false ∧
      jsLtO (daysInMonthAt (4 - 1)) (jsLastNum fields31Apr.dayOfMonth) = true ∧
      testComps fields31Apr ⟨2017, 4, 2, 2, 0, 0, 0⟩ = .ok false := by
  exact ⟨rfl, by decide⟩

/-- C5 amended, part 1: the guard of the match-time error holds iff the
instant's month is March (so the previous month is February), the first
compiled month equals 2, the year is not a leap year, and the last compiled
day of month exceeds 28. -/
theorem throwCond_iff (f : Fields) (d : Instant) :
    throwCond f d = true ↔
      d.month0 + 1 = 3 ∧ jsHeadNum f.month = some 2 ∧
        jsIsLeap d.year = false ∧ jsLtO (some 28) (jsLastNum f.dayOfMonth) = true := by
  unfold throwCond
  cases hl : jsIsLeap d.year with
  | true => simp [hl, jsLtO]
  | false =>
    by_cases h1 : d.month0 + 1 = 1
    · have h3 : ¬ d.month0 + 1 = 3 := by omega
      simp [hl, h1, h3]
    · by_cases h2 : d.month0 + 1 - 1 = 2
      · have h3 : d.month0 + 1 = 3 := by omega
        have hd : daysInMonthAt 1 = some 28 := by decide
        simp [hl, h1, h2, h3, hd]
      · have h3 : ¬ d.month0 + 1 = 3 := by omega
        simp [hl, h1, h2, h3]
        intro h
        exact absurd h (by omega)

/-- C5 amended, main theorem: matching raises the invalid-day-of-month
error exactly when the month field is not a wildcard span, the instant's
month is March, the first compiled month is 2 (February), the year is not a
leap year, and the last compiled day of month exceeds 28; with a wildcard
month span the check never fires. -/
theorem testComps_error_iff (f : Fields) (d : Instant) :
    testComps f d = .error .invalidDayOfMonth ↔
      isWildcardRange f.month [1, 12] = false ∧ d.month0 + 1 = 3 ∧
        jsHeadNum f.month = some 2 ∧ jsIsLeap d.year = false ∧
        jsLtO (some 28) (jsLastNum f.dayOfMonth) = true := by
  unfold testComps
  split
  case isTrue hw =>
    by_cases ht : throwCond f d = true
    · rw [if_pos (by exact_mod_cast ht)]
      simp [hw, (throwCond_iff f d).mp ht]
    · have ht' : throwCond f d = false := by simpa using ht
      rw [if_neg (by simp [ht'])]
      have : ¬ (d.month0 + 1 = 3 ∧ jsHeadNum f.month = some 2 ∧
          jsIsLeap d.year = false ∧ jsLtO (some 28) (jsLastNum f.dayOfMonth) = true) := by
        intro hc
        exact absurd ((throwCond_iff f d).mpr hc) ht
      simp [hw, this]
  case isFalse hw => simp [hw]

/-- C10: in a leap year the match engine never raises the
invalid-day-of-month error: the leap adjustment forces both compared
quantities to 29, so the guarding comparison `29 < 29` is false. -/
theorem throwCond_false_of_leap (f : Fields) (d : Instant)
    (h : jsIsLeap d.year = true) : throwCond f d = false := by
  simp [throwCond, h, jsLtO]

/-- C10 main theorem: on any instant in a leap year, `test` returns a
boolean for every compiled expression. -/
theorem leapYear_never_throws (f : Fields) (d : Instant)
    (h : jsIsLeap d.year = true) : ∃ b, testComps f d = .ok b := by
  unfold testComps
  rw [throwCond_false_of_leap f d h]
  split
  · exact ⟨testRest f d, rfl⟩
  · exact ⟨testRest f d, rfl⟩

/-- Witness for `leapYear_never_throws` at the leap year 2020. -/
theorem leapYear_never_throws_witness :
    jsIsLeap 2020 = true ∧
      ∃ b, testComps fields31Apr ⟨2020, 4, 2, 2, 0, 0, 0⟩ = .ok b :=
  ⟨by decide, leapYear_never_throws fields31Apr ⟨2020, 4, 2, 2, 0, 0, 0⟩ (by decide)⟩


/-- Helper: on the set `{lo, …, lo+k-1}` the match loop finds any value in
range and answers true. -/
theorem matchLoop_mkSet (v : Int) :
    ∀ (k : Nat) (lo : Int), lo ≤ v → v < lo + k →
      matchLoop v (mkSet lo k) = some true := by
  intro k
  induction k with
  | zero =>
    intro lo h1 h2
    exfalso
    simp only [Nat.cast_zero, Int.add_zero] at h2
    omega
  | succ m ih =>
    intro lo h1 h2
    by_cases hv : v ≤ lo
    · have he : lo = v := le_antisymm h1 hv
      simp [mkSet, matchLoop, jsGe, hv, jsEq, he]
    · have h1a : lo + 1 ≤ v := by omega
      have h2a : v < (lo + 1) + m := by push_cast at h2 ⊢; omega
      simpa [mkSet, matchLoop, jsGe, hv] using ih (lo + 1) h1a h2a

/-- Helper: a full-range compiled set matches every in-range value. -/
theorem matchSchedule_mkSet (v lo : Int) (k : Nat) (h1 : lo ≤ v) (h2 : v < lo + k) :
    matchSchedule v (mkSet lo k) = true := by
  unfold matchSchedule
  rw [matchLoop_mkSet v k lo h1 h2]
  rfl

/-- Helper: a singleton compiled set matches exactly its own value
(including through the wrap-around branch). -/
theorem matchSchedule_singleton (x v : Int) :
    matchSchedule v [some x] = decide (x = v) := by
  by_cases h : v ≤ x
  · simp [matchSchedule, matchLoop, jsGe, jsEq, h]
  · simp [matchSchedule, matchLoop, jsGe, jsEq, h]

/-- Helper: the compiled day-of-month set `{1, 15}` matches exactly the
days 1 and 15 for day values in `[1, 31]`. -/
theorem matchSchedule_pair (v : Int) :
    matchSchedule v [some 1, some 15] = decide (v = 1 ∨ v = 15) := by
  by_cases h1 : v ≤ 1
  · simp only [matchSchedule, matchLoop, jsGe, jsEq, h1, decide_True, if_true,
      Option.getD_some]
    rw [decide_eq_decide]
    omega
  · by_cases h2 : v ≤ 15
    · simp only [matchSchedule, matchLoop, jsGe, jsEq, h1, h2, decide_True,
        decide_False, Bool.false_eq_true, if_false, if_true, Option.getD_some]
      rw [decide_eq_decide]
      omega
    · simp only [matchSchedule, matchLoop, jsGe, jsEq, h1, h2, decide_False,
        Bool.false_eq_true, if_false, Option.getD_none, List.head?]
      rw [decide_eq_decide]
      omega

set_option maxRecDepth 100000 in
/-- C8: for the compiled `"30 4 1,15 * 5"` the POSIX OR rule holds: the 1st
of any month at 04:30 on a non-Friday weekday matches, any Friday at 04:30
on a day other than the 1st and the 15th matches, and the 2nd at 04:30 on a
Tuesday does not. -/
theorem posixOr_scenario :
    parseExpr "30 4 1,15 * 5" = .ok fields30415 ∧
      (∀ (y m0 w s : Int), 0 ≤ m0 → m0 ≤ 11 → 0 ≤ w → w ≤ 6 → w ≠ 5 → 0 ≤ s → s ≤ 59 →
          testComps fields30415 ⟨y, m0, 1, w, 4, 30, s⟩ = .ok true) ∧
      (∀ (y m0 d s : Int), 0 ≤ m0 → m0 ≤ 11 → 1 ≤ d → d ≤ 31 → d ≠ 1 → d ≠ 15 →
          0 ≤ s → s ≤ 59 →
          testComps fields30415 ⟨y, m0, d, 5, 4, 30, s⟩ = .ok true) ∧
      (∀ (y m0 s : Int), 0 ≤ m0 → m0 ≤ 11 → 0 ≤ s → s ≤ 59 →
          testComps fields30415 ⟨y, m0, 2, 2, 4, 30, s⟩ = .ok false) := by
  have htc : ∀ d : Instant, testComps fields30415 d = .ok (testRest fields30415 d) := by
    intro d
    unfold testComps
    rw [if_neg (by decide)]
  have hw1 : isWildcardRange fields30415.dayOfMonth [1, 31] = false := by decide
  have hw2 : isWildcardRange fields30415.dayOfWeek [0, 7] = false := by decide
  refine ⟨by rfl, ?_, ?_, ?_⟩
  · intro y m0 w s hm1 hm2 hw3 hw4 hw5 hs1 hs2
    rw [htc]
    have hdom : matchSchedule 1 fields30415.dayOfMonth = true := by decide
    have hdow : matchSchedule w fields30415.dayOfWeek = false := by
      rw [show fields30415.dayOfWeek = [some 5] from rfl, matchSchedule_singleton]
      exact decide_eq_false (fun e => hw5 e.symm)
    have hmon : matchSchedule (m0 + 1) fields30415.month = true := by
      rw [show fields30415.month = mkSet 1 12 from rfl]
      exact matchSchedule_mkSet _ 1 12 (by omega) (by push_cast; omega)
    have hsec : matchSchedule s fields30415.second = true := by
      rw [show fields30415.second = mkSet 0 60 from rfl]
      exact matchSchedule_mkSet _ 0 60 (by omega) (by push_cast; omega)
    simp only [testRest, hdom, hdow, hmon, hsec, hw1, hw2]
    decide
  · intro y m0 d s hm1 hm2 hd1 hd2 hd3 hd4 hs1 hs2
    rw [htc]
    have hdom : matchSchedule d fields30415.dayOfMonth = false := by
      rw [show fields30415.dayOfMonth = [some 1, some 15] from rfl, matchSchedule_pair]
      simp [hd3, hd4]
    have hdow : matchSchedule 5 fields30415.dayOfWeek = true := by decide
    have hmon : matchSchedule (m0 + 1) fields30415.month = true := by
      rw [show fields30415.month = mkSet 1 12 from rfl]
      exact matchSchedule_mkSet _ 1 12 (by omega) (by push_cast; omega)
    have hsec : matchSchedule s fields30415.second = true := by
      rw [show fields30415.second = mkSet 0 60 from rfl]
      exact matchSchedule_mkSet _ 0 60 (by omega) (by push_cast; omega)
    simp only [testRest, hdom, hdow, hmon, hsec, hw1, hw2]
    decide
  · intro y m0 s hm1 hm2 hs1 hs2
    rw [htc]
    have hdom : matchSchedule 2 fields30415.dayOfMonth = false := by decide
    have hdow : matchSchedule 2 fields30415.dayOfWeek = false := by decide
    simp only [testRest, hdom, hdow]
    simp

/-- Witness for `posixOr_scenario`: July 1st 2026 00:00 falls on a
Wednesday; July 3rd is a Friday; a Tuesday-the-2nd case. -/
theorem posixOr_scenario_witness :
    testComps fields30415 ⟨2026, 6, 1, 3, 4, 30, 0⟩ = .ok true ∧
      testComps fields30415 ⟨2026, 6, 3, 5, 4, 30, 0⟩ = .ok true ∧
      testComps fields30415 ⟨2026, 5, 2, 2, 4, 30, 0⟩ = .ok false :=
  ⟨posixOr_scenario.2.1 2026 6 3 0 (by decide) (by decide) (by decide) (by decide)
      (by decide) (by decide) (by decide),
   posixOr_scenario.2.2.1 2026 6 3 0 (by decide) (by decide) (by decide) (by decide)
      (by decide) (by decide) (by decide) (by decide),
   posixOr_scenario.2.2.2 2026 5 0 (by decide) (by decide) (by decide) (by decide)⟩

end Cron
